import Mathlib

/-
Verification of the subhft rust core: shallow embedding of the risk gate,
position tracker, shared-memory ring buffer, limit order book, trade-flow
alpha factors, volatility-regime classifier and Hawkes intensity tracker,
together with theorems settling the specification claims about them.

Modelling conventions: Rust i64 values become ℤ (i64 division is embedded as
Int.tdiv, which truncates toward zero exactly as Rust integer division does);
f64 values become ℚ where the code only adds, multiplies, divides and
compares (risk gate, order book quantities, trade-flow sums) and ℝ where the
code calls exp or sqrt (Hawkes tracker, regime classifier); byte buffers
become lists of ℕ.
-/

set_option maxHeartbeats 1000000

/-! ## Risk gate (src/rust_core/src/risk.rs) -/

/-- Embeds the FastGate struct: the process-local limits.  The 1-byte
kill-switch cell lives in shared memory and is passed to check explicitly. -/
structure FastGate where
  max_price : ℚ
  max_qty : ℚ

/-- Embeds FastGate::check.  kill_flag is the byte read (volatile) from the
kill-switch shared-memory cell. -/
def FastGate.check (g : FastGate) (kill_flag : ℕ) (price qty : ℚ) : Bool × ℕ :=
  if 0 < kill_flag then (false, 1)
  else if price ≤ 0 then (false, 2)
  else if g.max_price < price then (false, 3)
  else if qty ≤ 0 then (false, 5)
  else if g.max_qty < qty then (false, 4)
  else (true, 0)

/-! ## Position tracker (src/rust_core/src/positions.rs) -/

/-- Embeds PositionState: all values i64 fixed-point. -/
structure PositionState where
  net_qty : ℤ
  avg_price_scaled : ℤ
  realized_pnl_scaled : ℤ
  fees_scaled : ℤ
  last_update_ts : ℤ
deriving DecidableEq

/-- Embeds PositionState::new. -/
def PositionState.new : PositionState :=
  { net_qty := 0
    avg_price_scaled := 0
    realized_pnl_scaled := 0
    fees_scaled := 0
    last_update_ts := 0 }

/-- Embeds the per-position body of RustPositionTracker::update (the code
between the entry lookup and the return): fee accumulation, the
closing/opening case split, P&L and weighted-average arithmetic.  Rust i64
division truncates toward zero, hence Int.tdiv. -/
def PositionState.updateFill (pos : PositionState)
    (side qty price_scaled fee tax match_ts : ℤ) : PositionState :=
  let signed_fill_qty : ℤ := if side = 0 then qty else -qty
  let pos := { pos with fees_scaled := pos.fees_scaled + fee + tax }
  let current_sign : ℤ :=
    if 0 < pos.net_qty then 1 else if pos.net_qty < 0 then -1 else 0
  let fill_sign : ℤ := if side = 0 then 1 else -1
  let pos :=
    if current_sign ≠ 0 ∧ fill_sign ≠ current_sign then
      let close_qty := min |pos.net_qty| qty
      let pnl :=
        if side = 0 then (pos.avg_price_scaled - price_scaled) * close_qty
        else (price_scaled - pos.avg_price_scaled) * close_qty
      let pos := { pos with realized_pnl_scaled := pos.realized_pnl_scaled + pnl }
      let pos := { pos with net_qty := pos.net_qty + signed_fill_qty }
      if (0 < current_sign ∧ pos.net_qty < 0) ∨ (current_sign < 0 ∧ 0 < pos.net_qty) then
        { pos with avg_price_scaled := price_scaled }
      else pos
    else
      if pos.net_qty = 0 then
        { pos with avg_price_scaled := price_scaled, net_qty := pos.net_qty + signed_fill_qty }
      else
        let total_val := pos.net_qty * pos.avg_price_scaled + signed_fill_qty * price_scaled
        let pos := { pos with net_qty := pos.net_qty + signed_fill_qty }
        if pos.net_qty ≠ 0 then
          { pos with avg_price_scaled := Int.tdiv total_val pos.net_qty }
        else pos
  { pos with last_update_ts := match_ts }

/-- Embeds RustPositionTracker: the HashMap is modelled as an association
list in which the first entry for a key is its current state. -/
structure RustPositionTracker where
  positions : List (String × PositionState)

/-- Embeds RustPositionTracker::new. -/
def RustPositionTracker.new : RustPositionTracker := { positions := [] }

/-- Embeds RustPositionTracker::update: entry-or-insert, the fill body, and
the returned tuple. -/
def RustPositionTracker.update (t : RustPositionTracker) (key : String)
    (side qty price_scaled fee tax match_ts : ℤ) :
    RustPositionTracker × (ℤ × ℤ × ℤ × ℤ) :=
  let pos := ((t.positions.lookup key).getD PositionState.new).updateFill
      side qty price_scaled fee tax match_ts
  ({ positions := (key, pos) :: t.positions.filter (fun kv => kv.1 != key) },
   (pos.net_qty, pos.avg_price_scaled, pos.realized_pnl_scaled, pos.fees_scaled))

/-- Embeds RustPositionTracker::get. -/
def RustPositionTracker.get (t : RustPositionTracker) (key : String) :
    ℤ × ℤ × ℤ × ℤ :=
  match t.positions.lookup key with
  | some pos => (pos.net_qty, pos.avg_price_scaled, pos.realized_pnl_scaled, pos.fees_scaled)
  | none => (0, 0, 0, 0)

/-- Embeds RustPositionTracker::reset. -/
def RustPositionTracker.reset (t : RustPositionTracker) (key : String) :
    RustPositionTracker :=
  { positions := t.positions.filter (fun kv => kv.1 != key) }

/-! ## Shared-memory ring buffer (src/rust_core/src/ipc.rs) -/

/-- Embeds the SLOT_SIZE constant. -/
def SLOT_SIZE : ℕ := 64

/-- Embeds ShmRingBuffer: the two header cursors plus the slot region; a
slot is a 64-byte list.  Cursors are monotone, so ℕ stands for u64. -/
structure ShmRingBuffer where
  capacity : ℕ
  write_cursor : ℕ
  read_cursor : ℕ
  slots : ℕ → List ℕ

/-- Embeds the copy_nonoverlapping in write: the first min(len, SLOT_SIZE)
bytes of the slot are overwritten, the remaining bytes keep their value. -/
def slotWrite (old data : List ℕ) : List ℕ :=
  let len := min data.length SLOT_SIZE
  data.take len ++ old.drop len

/-- Embeds ShmRingBuffer::new with create = true: zeroed header and (after
set_len on a fresh file) zeroed slots. -/
def ShmRingBuffer.new (capacity : ℕ) : ShmRingBuffer :=
  { capacity := capacity
    write_cursor := 0
    read_cursor := 0
    slots := fun _ => List.replicate SLOT_SIZE 0 }

/-- Embeds ShmRingBuffer::write. -/
def ShmRingBuffer.write (s : ShmRingBuffer) (data : List ℕ) :
    Bool × ShmRingBuffer :=
  if s.capacity ≤ s.write_cursor - s.read_cursor then (false, s)
  else
    (true,
     { s with
       slots := fun i =>
         if i = s.write_cursor % s.capacity then
           slotWrite (s.slots (s.write_cursor % s.capacity)) data
         else s.slots i
       write_cursor := s.write_cursor + 1 })

/-- Embeds ShmRingBuffer::read. -/
def ShmRingBuffer.read (s : ShmRingBuffer) : Option (List ℕ) × ShmRingBuffer :=
  if s.write_cursor ≤ s.read_cursor then (none, s)
  else
    (some (s.slots (s.read_cursor % s.capacity)),
     { s with read_cursor := s.read_cursor + 1 })

/-- States reachable from a freshly created buffer by write and read calls
(single-writer/single-reader interleavings). -/
inductive ShmReachable : ShmRingBuffer → Prop
  | init (capacity : ℕ) : ShmReachable (ShmRingBuffer.new capacity)
  | wr (s : ShmRingBuffer) (data : List ℕ) :
      ShmReachable s → ShmReachable (s.write data).2
  | rd (s : ShmRingBuffer) : ShmReachable s → ShmReachable s.read.2

/-- The queue abstraction of a ring-buffer state: the pending slot contents
between the read and write cursors, oldest first. -/
def ShmRingBuffer.pending (s : ShmRingBuffer) : List (List ℕ) :=
  (List.range (s.write_cursor - s.read_cursor)).map
    (fun i => s.slots ((s.read_cursor + i) % s.capacity))

/-- A sequence of writes; returns whether all of them succeeded, and the
final state. -/
def writeSeq : ShmRingBuffer → List (List ℕ) → Bool × ShmRingBuffer
  | s, [] => (true, s)
  | s, d :: ds =>
    let r := s.write d
    let rest := writeSeq r.2 ds
    (r.1 && rest.1, rest.2)

/-! ## Limit order book (src/rust_core/src/lob.rs) -/

/-- Embeds the f64-to-u64 key scaling `(price * 10000.0) as u64`: the cast
truncates toward zero and clamps negative values to 0, which on ℚ is
Int.toNat of the floor for every sign. -/
def scalePrice (price : ℚ) : ℕ := (⌊price * 10000⌋).toNat

/-- Embeds LimitOrderBook: each BTreeMap is an association list strictly
sorted by ascending key, mirroring BTreeMap iteration order. -/
structure LimitOrderBook where
  symbol : String
  bids : List (ℕ × ℚ)
  asks : List (ℕ × ℚ)

/-- Insertion into the sorted association list: replaces the entry with an
equal key, otherwise inserts at the ordered place (BTreeMap::insert). -/
def insertSorted : List (ℕ × ℚ) → ℕ → ℚ → List (ℕ × ℚ)
  | [], k, q => [(k, q)]
  | (k', q') :: rest, k, q =>
    if k < k' then (k, q) :: (k', q') :: rest
    else if k = k' then (k, q) :: rest
    else (k', q') :: insertSorted rest k q

/-- Removal from the association list (BTreeMap::remove). -/
def removeKey (l : List (ℕ × ℚ)) (k : ℕ) : List (ℕ × ℚ) :=
  l.filter (fun kv => kv.1 != k)

/-- First-match association-list lookup (BTreeMap::get). -/
def lookupKey : List (ℕ × ℚ) → ℕ → Option ℚ
  | [], _ => none
  | (k', q) :: rest, k => if k' = k then some q else lookupKey rest k

/-- Embeds LimitOrderBook::new. -/
def LimitOrderBook.new (symbol : String) : LimitOrderBook :=
  { symbol := symbol, bids := [], asks := [] }

/-- Embeds LimitOrderBook::update. -/
def LimitOrderBook.update (b : LimitOrderBook) (is_bid : Bool)
    (price quantity : ℚ) : LimitOrderBook :=
  let scaled_price := scalePrice price
  if quantity ≤ 0 then
    if is_bid then { b with bids := removeKey b.bids scaled_price }
    else { b with asks := removeKey b.asks scaled_price }
  else
    if is_bid then { b with bids := insertSorted b.bids scaled_price quantity }
    else { b with asks := insertSorted b.asks scaled_price quantity }

/-- Embeds LimitOrderBook::top_bids: iterate the bid map in reverse
(descending key) order, take depth, convert keys back to real prices. -/
def LimitOrderBook.top_bids (b : LimitOrderBook) (depth : ℕ) : List (ℚ × ℚ) :=
  (b.bids.reverse.take depth).map (fun kq => ((kq.1 : ℚ) / 10000, kq.2))

/-- Embeds LimitOrderBook::top_asks: ascending key order. -/
def LimitOrderBook.top_asks (b : LimitOrderBook) (depth : ℕ) : List (ℚ × ℚ) :=
  (b.asks.take depth).map (fun kq => ((kq.1 : ℚ) / 10000, kq.2))

/-- Applies a sequence of update calls (is_bid, price, qty) in order. -/
def LimitOrderBook.applyUpdates (b : LimitOrderBook)
    (us : List (Bool × ℚ × ℚ)) : LimitOrderBook :=
  us.foldl (fun b u => b.update u.1 u.2.1 u.2.2) b

/-- The quantity of the most recent update for a given side and scaled
price, if any update for that side and key occurred. -/
def lastQty : List (Bool × ℚ × ℚ) → Bool → ℕ → Option ℚ
  | [], _, _ => none
  | u :: us, side, k =>
    match lastQty us side k with
    | some q => some q
    | none => if u.1 = side ∧ scalePrice u.2.1 = k then some u.2.2 else none

/-- The side selector used to state per-side properties. -/
def LimitOrderBook.sideLevels (b : LimitOrderBook) (side : Bool) : List (ℕ × ℚ) :=
  if side then b.bids else b.asks

/-! ## Matched-filter trade flow (src/rust_core/src/alpha_flow.rs) -/

/-- Embeds MatchedFilterTradeFlow; VecDeque front = list head (oldest). -/
structure MatchedFilterTradeFlow where
  fast_window : ℕ
  slow_window : ℕ
  trade_vol_history : List ℚ
  trade_side_history : List ℚ
  sum_signed_flow_fast : ℚ
  sum_vol_slow : ℚ
deriving DecidableEq

/-- Embeds MatchedFilterTradeFlow::new. -/
def MatchedFilterTradeFlow.new (fast_window slow_window : ℕ) :
    MatchedFilterTradeFlow :=
  { fast_window := fast_window
    slow_window := slow_window
    trade_vol_history := []
    trade_side_history := []
    sum_signed_flow_fast := 0
    sum_vol_slow := 0 }

/-- Embeds MatchedFilterTradeFlow::update; 1e-8 is embedded as the rational
it denotes. -/
def MatchedFilterTradeFlow.update (m : MatchedFilterTradeFlow)
    (trade_vol trade_side : ℚ) : MatchedFilterTradeFlow × ℚ :=
  let signed_flow := trade_vol * trade_side
  let m : MatchedFilterTradeFlow := { m with
    trade_vol_history := m.trade_vol_history ++ [trade_vol]
    trade_side_history := m.trade_side_history ++ [trade_side]
    sum_signed_flow_fast := m.sum_signed_flow_fast + signed_flow
    sum_vol_slow := m.sum_vol_slow + trade_vol }
  let m : MatchedFilterTradeFlow :=
    if m.fast_window < m.trade_vol_history.length then
      let old_vol := m.trade_vol_history.getD (m.trade_vol_history.length - 1 - m.fast_window) 0
      let old_side := m.trade_side_history.getD (m.trade_side_history.length - 1 - m.fast_window) 0
      { m with sum_signed_flow_fast := m.sum_signed_flow_fast - old_vol * old_side }
    else m
  let m : MatchedFilterTradeFlow :=
    if m.slow_window < m.trade_vol_history.length then
      let old_vol := m.trade_vol_history.headD 0
      { m with
        trade_vol_history := m.trade_vol_history.tail
        trade_side_history := m.trade_side_history.tail
        sum_vol_slow := m.sum_vol_slow - old_vol }
    else m
  let signal : ℚ :=
    if m.trade_vol_history.length < m.slow_window then 0
    else
      let capacity := m.sum_vol_slow / (m.slow_window : ℚ)
      if 1 / 100000000 < capacity then m.sum_signed_flow_fast / capacity else 0
  (m, signal)

/-! ## Meta alpha, trade-flow component (src/rust_core/src/alpha_meta.rs) -/

/-- Embeds the trade-flow state of MetaAlpha (the fields named exactly as in
the struct); the other MetaAlpha fields neither read nor write these, so the
trade-flow fragment of MetaAlpha::update acts on this state alone. -/
structure MetaAlphaFlow where
  fast_window : ℕ
  slow_window : ℕ
  trade_vol_history : List ℚ
  trade_side_history : List ℚ
  sum_signed_flow_fast : ℚ
  sum_vol_slow : ℚ
deriving DecidableEq

/-- Embeds the trade-flow initial state set up by MetaAlpha::new. -/
def MetaAlphaFlow.new (fast_window slow_window : ℕ) : MetaAlphaFlow :=
  { fast_window := fast_window
    slow_window := slow_window
    trade_vol_history := []
    trade_side_history := []
    sum_signed_flow_fast := 0
    sum_vol_slow := 0 }

/-- Embeds the trade-flow fragment of MetaAlpha::update (the push/evict
block and the computation of trade_flow_signal). -/
def MetaAlphaFlow.update (m : MetaAlphaFlow) (trade_vol trade_side : ℚ) :
    MetaAlphaFlow × ℚ :=
  let signed_flow := trade_vol * trade_side
  let m : MetaAlphaFlow := { m with
    trade_vol_history := m.trade_vol_history ++ [trade_vol]
    trade_side_history := m.trade_side_history ++ [trade_side]
    sum_signed_flow_fast := m.sum_signed_flow_fast + signed_flow
    sum_vol_slow := m.sum_vol_slow + trade_vol }
  let m : MetaAlphaFlow :=
    if m.fast_window < m.trade_vol_history.length then
      let old_vol := m.trade_vol_history.getD (m.trade_vol_history.length - 1 - m.fast_window) 0
      let old_side := m.trade_side_history.getD (m.trade_side_history.length - 1 - m.fast_window) 0
      { m with sum_signed_flow_fast := m.sum_signed_flow_fast - old_vol * old_side }
    else m
  let m : MetaAlphaFlow :=
    if m.slow_window < m.trade_vol_history.length then
      let old_vol := m.trade_vol_history.headD 0
      { m with
        trade_vol_history := m.trade_vol_history.tail
        trade_side_history := m.trade_side_history.tail
        sum_vol_slow := m.sum_vol_slow - old_vol }
    else m
  let capacity : ℚ :=
    if min m.slow_window 10 ≤ m.trade_vol_history.length then
      m.sum_vol_slow / (m.trade_vol_history.length : ℚ)
    else 1
  let trade_flow_signal :=
    if 1 / 100000000 < capacity then m.sum_signed_flow_fast / capacity else 0
  (m, trade_flow_signal)

/-- Field-for-field correspondence between the two trade-flow states. -/
def MatchedFilterTradeFlow.toMeta (m : MatchedFilterTradeFlow) : MetaAlphaFlow :=
  { fast_window := m.fast_window
    slow_window := m.slow_window
    trade_vol_history := m.trade_vol_history
    trade_side_history := m.trade_side_history
    sum_signed_flow_fast := m.sum_signed_flow_fast
    sum_vol_slow := m.sum_vol_slow }

/-- Feeds a stream of (trade_vol, trade_side) updates to a fresh
MatchedFilterTradeFlow; returns the final state and last returned signal. -/
def mfRun (fast_window slow_window : ℕ) (inputs : List (ℚ × ℚ)) :
    MatchedFilterTradeFlow × ℚ :=
  inputs.foldl (fun a i => a.1.update i.1 i.2)
    (MatchedFilterTradeFlow.new fast_window slow_window, 0)

/-- Feeds the same stream to the trade-flow component of a fresh MetaAlpha. -/
def metaRun (fast_window slow_window : ℕ) (inputs : List (ℚ × ℚ)) :
    MetaAlphaFlow × ℚ :=
  inputs.foldl (fun a i => a.1.update i.1 i.2)
    (MetaAlphaFlow.new fast_window slow_window, 0)

/-! ## Volatility regime classifier (src/rust_core/src/alpha_meta.rs) -/

/-- Embeds the per-slice mean/variance/sqrt computation of
compute_vol_regime.  The code sums the slice and divides by its length as
f64; on an empty slice this is 0.0/0.0 = NaN, which then propagates through
the variance and sqrt.  NaN is modelled as none; a nonempty slice of reals
produces a real standard deviation (no other NaN or infinity source exists
on this path: the length is then positive and the variance nonnegative). -/
noncomputable def sliceVol (l : List ℝ) : Option ℝ :=
  if l.length = 0 then none
  else
    let mean : ℝ := l.sum / l.length
    let var : ℝ := (l.map (fun x => (x - mean) ^ 2)).sum / l.length
    some (Real.sqrt var)

/-- Embeds compute_vol_regime; the VecDeque front is the list head (oldest
sample), so iter().skip(start) is List.drop start.  A NaN volatility
(empty slice, sliceVol = none) makes every f64 comparison on it false, so
the code falls through to the 0.0 branches; the matches on none mirror
that. -/
noncomputable def compute_vol_regime (returns : List ℝ)
    (short_window long_window : ℕ) : ℝ :=
  if returns.length < long_window then 0
  else
    let n := returns.length
    let short_vol := sliceVol (returns.drop (n - short_window))
    let long_vol := sliceVol (returns.drop (n - long_window))
    match long_vol with
    | none => 0
    | some lv =>
      if 1 / 10000000000 < lv then
        match short_vol with
        | none => 0
        | some sv =>
          let vol_ratio := sv / lv
          if 3 / 2 < vol_ratio then 1
          else if vol_ratio < 7 / 10 then -1
          else 0
      else 0

/-! ## Hawkes tracker (src/rust_core/src/strategy.rs) -/

/-- Embeds HawkesTracker. -/
structure HawkesTracker where
  mu : ℝ
  alpha : ℝ
  beta : ℝ
  last_ts : ℤ
  intensity : ℝ

/-- Embeds HawkesTracker::new. -/
def HawkesTracker.new (mu alpha beta : ℝ) : HawkesTracker :=
  { mu := mu, alpha := alpha, beta := beta, last_ts := 0, intensity := mu }

/-- Embeds HawkesTracker::update: nanosecond timestamps, decay only for
positive dt, jump after decay, last_ts always refreshed. -/
noncomputable def HawkesTracker.update (h : HawkesTracker) (current_ts : ℤ)
    (is_event : Bool) : HawkesTracker :=
  let dt : ℝ := ((current_ts - h.last_ts : ℤ) : ℝ) / 1000000000
  let intensity :=
    if 0 < dt then h.mu + (h.intensity - h.mu) * Real.exp (-h.beta * dt)
    else h.intensity
  let intensity := if is_event then intensity + h.alpha else intensity
  { h with intensity := intensity, last_ts := current_ts }

/-! ## Helper lemmas -/

theorem lookup_filter_bne_eq_none (l : List (String × PositionState)) (key : String) :
    (l.filter (fun kv => kv.1 != key)).lookup key = none := by
  induction l with
  | nil => rfl
  | cons kv rest ih =>
    obtain ⟨k, v⟩ := kv
    rw [List.filter_cons]
    by_cases h : k = key
    · rw [if_neg]
      · exact ih
      · subst h
        simp
    · have hbeq : (key == k) = false := beq_eq_false_iff_ne.mpr (Ne.symm h)
      rw [if_pos (by simpa [bne_iff_ne] using h)]
      simp [List.lookup, hbeq, ih]

theorem nat_div_cast_lt (m n : ℕ) (hn : n ≠ 0) (h : ¬ n ∣ m) :
    ((m / n : ℕ) : ℚ) < (m : ℚ) / (n : ℚ) := by
  have hn0 : 0 < n := Nat.pos_of_ne_zero hn
  have hmod : m % n ≠ 0 := fun hc => h (Nat.dvd_of_mod_eq_zero hc)
  have hle : m / n * n ≤ m := Nat.div_mul_le_self m n
  have hne2 : m / n * n ≠ m := fun hc => h ⟨m / n, by rw [mul_comm]; exact hc.symm⟩
  rw [lt_div_iff₀ (by exact_mod_cast hn0)]
  exact_mod_cast lt_of_le_of_ne hle hne2

theorem abs_cast_tdiv_lt (a b : ℤ) (hb : b ≠ 0) (h : ¬ b ∣ a) :
    |((a.tdiv b : ℤ) : ℚ)| < |(a : ℚ) / (b : ℚ)| := by
  have hdvd : ¬ b.natAbs ∣ a.natAbs := fun hc => h (Int.natAbs_dvd_natAbs.mp hc)
  have hb' : b.natAbs ≠ 0 := fun hc => hb (Int.natAbs_eq_zero.mp hc)
  have h1 : (a.tdiv b).natAbs = a.natAbs / b.natAbs := Int.natAbs_tdiv a b
  have habs : ∀ z : ℤ, |((z : ℤ) : ℚ)| = (z.natAbs : ℚ) := by
    intro z
    rw [← Int.cast_abs]
    exact Int.cast_natAbs.symm
  rw [habs, h1, abs_div, habs, habs]
  exact nat_div_cast_lt a.natAbs b.natAbs hb' hdvd

/-! ## Claim theorems -/

/-- C1: FastGate.check evaluates its checks in strict order: a nonzero
kill-switch byte gives (false, 1) regardless of price and qty; otherwise
price ≤ 0 gives (false, 2) even for invalid qty; then price above the
ceiling gives (false, 3); then qty ≤ 0 gives (false, 5); then qty above the
ceiling gives (false, 4); otherwise (true, 0). -/
theorem fastGate_check_strict_order (g : FastGate) (kill_flag : ℕ) (price qty : ℚ) :
    (kill_flag ≠ 0 → g.check kill_flag price qty = (false, 1))
  ∧ (kill_flag = 0 → price ≤ 0 → g.check kill_flag price qty = (false, 2))
  ∧ (kill_flag = 0 → 0 < price → g.max_price < price →
      g.check kill_flag price qty = (false, 3))
  ∧ (kill_flag = 0 → 0 < price → price ≤ g.max_price → qty ≤ 0 →
      g.check kill_flag price qty = (false, 5))
  ∧ (kill_flag = 0 → 0 < price → price ≤ g.max_price → 0 < qty → g.max_qty < qty →
      g.check kill_flag price qty = (false, 4))
  ∧ (kill_flag = 0 → 0 < price → price ≤ g.max_price → 0 < qty → qty ≤ g.max_qty →
      g.check kill_flag price qty = (true, 0)) := by
  unfold FastGate.check
  refine ⟨fun h => ?_, fun h hp => ?_, fun h hp hmax => ?_,
    fun h hp hpm hq => ?_, fun h hp hpm hq hqm => ?_, fun h hp hpm hq hqm => ?_⟩ <;>
    simp_all [not_le.mpr, not_lt.mpr, Nat.pos_of_ne_zero]

/-- C1 witness: concrete evaluations exercising the kill-switch branch and
the price branch with an invalid qty. -/
theorem fastGate_check_strict_order_witness :
    FastGate.check ⟨100, 10⟩ 1 (-5) (-7) = (false, 1)
  ∧ FastGate.check ⟨100, 10⟩ 0 (-5) (-7) = (false, 2) :=
  ⟨(fastGate_check_strict_order ⟨100, 10⟩ 1 (-5) (-7)).1 (by decide),
   (fastGate_check_strict_order ⟨100, 10⟩ 0 (-5) (-7)).2.1 rfl (by norm_num)⟩

/-- C9: get returns the zero-tuple for keys with no record, and reset
removes the record so a subsequent get returns the zero-tuple. -/
theorem positionTracker_unknown_key_zero (t : RustPositionTracker) (key : String) :
    (t.positions.lookup key = none → t.get key = (0, 0, 0, 0))
  ∧ (t.reset key).positions.lookup key = none
  ∧ (t.reset key).get key = (0, 0, 0, 0) := by
  refine ⟨fun h => ?_, ?_, ?_⟩
  · simp [RustPositionTracker.get, h]
  · exact lookup_filter_bne_eq_none t.positions key
  · simp [RustPositionTracker.get, RustPositionTracker.reset,
      lookup_filter_bne_eq_none t.positions key]

/-- C9 witness: the empty tracker has no record for any key. -/
theorem positionTracker_unknown_key_zero_witness :
    RustPositionTracker.new.positions.lookup "a" = none
  ∧ RustPositionTracker.new.get "a" = (0, 0, 0, 0) :=
  ⟨rfl, (positionTracker_unknown_key_zero RustPositionTracker.new "a").1 rfl⟩

/-- C2: a fill whose side opposes a nonzero position closes
min(|net_qty|, qty): realized P&L moves by (avg − price)·close_qty on a buy
covering a short and (price − avg)·close_qty on a sell reducing a long,
net_qty moves by the signed quantity, and avg_price resets to the fill
price exactly when the sign of net_qty flips; the concrete flip example
buy 10 @ 1000 then sell 15 @ 1100 gives (net, avg, pnl) = (−5, 1100, 1000). -/
theorem positionTracker_closing_fill (pos : PositionState)
    (side qty price_scaled fee tax match_ts : ℤ)
    (hclose : (side = 0 ∧ pos.net_qty < 0) ∨ (side ≠ 0 ∧ 0 < pos.net_qty)) :
    ((pos.updateFill side qty price_scaled fee tax match_ts).realized_pnl_scaled
        = pos.realized_pnl_scaled +
          (if side = 0 then (pos.avg_price_scaled - price_scaled) * min |pos.net_qty| qty
           else (price_scaled - pos.avg_price_scaled) * min |pos.net_qty| qty)
  ∧ (pos.updateFill side qty price_scaled fee tax match_ts).net_qty
        = pos.net_qty + (if side = 0 then qty else -qty)
  ∧ (pos.updateFill side qty price_scaled fee tax match_ts).avg_price_scaled
        = (if (0 < pos.net_qty ∧ pos.net_qty + (if side = 0 then qty else -qty) < 0)
              ∨ (pos.net_qty < 0 ∧ 0 < pos.net_qty + (if side = 0 then qty else -qty))
           then price_scaled else pos.avg_price_scaled)
  ∧ (pos.updateFill side qty price_scaled fee tax match_ts).fees_scaled
        = pos.fees_scaled + fee + tax)
  ∧ ((RustPositionTracker.new.update "k" 0 10 1000 0 0 0).1.update "k" 1 15 1100 0 0 0).2
        = (-5, 1100, 1000, 0) := by
  constructor
  · rcases hclose with ⟨hs, hn⟩ | ⟨hs, hn⟩
    · subst hs
      simp only [PositionState.updateFill]
      refine ⟨?_, ?_, ?_, ?_⟩ <;> split_ifs <;> first | rfl | omega
    · simp only [PositionState.updateFill]
      refine ⟨?_, ?_, ?_, ?_⟩ <;> split_ifs <;> first | rfl | omega
  · decide

/-- C2 witness: a buy of 3 covering part of a short position of 5. -/
theorem positionTracker_closing_fill_witness :
    ((⟨-5, 2000, 0, 0, 0⟩ : PositionState).updateFill 0 3 1900 7 0 9).realized_pnl_scaled
      = (⟨-5, 2000, 0, 0, 0⟩ : PositionState).realized_pnl_scaled +
        (if (0 : ℤ) = 0
         then ((⟨-5, 2000, 0, 0, 0⟩ : PositionState).avg_price_scaled - 1900)
                * min |(⟨-5, 2000, 0, 0, 0⟩ : PositionState).net_qty| 3
         else (1900 - (⟨-5, 2000, 0, 0, 0⟩ : PositionState).avg_price_scaled)
                * min |(⟨-5, 2000, 0, 0, 0⟩ : PositionState).net_qty| 3) :=
  (positionTracker_closing_fill ⟨-5, 2000, 0, 0, 0⟩ 0 3 1900 7 0 9
    (Or.inl ⟨rfl, by decide⟩)).1.1

/-- C8: a fill that opens or increases same-direction exposure sets
avg_price to the fill price when net_qty was 0 and otherwise to the
weighted average (in i64 arithmetic); net_qty moves by the signed quantity
and realized P&L is unchanged; buy 10 @ 1000 then buy 10 @ 1200 gives
(net, avg, pnl) = (20, 1100, 0). -/
theorem positionTracker_increasing_fill (pos : PositionState)
    (side qty price_scaled fee tax match_ts : ℤ)
    (hsame : (side = 0 ∧ 0 ≤ pos.net_qty) ∨ (side ≠ 0 ∧ pos.net_qty ≤ 0))
    (hqty : 0 < qty) :
    ((pos.updateFill side qty price_scaled fee tax match_ts).net_qty
        = pos.net_qty + (if side = 0 then qty else -qty)
  ∧ (pos.updateFill side qty price_scaled fee tax match_ts).realized_pnl_scaled
        = pos.realized_pnl_scaled
  ∧ (pos.updateFill side qty price_scaled fee tax match_ts).avg_price_scaled
        = (if pos.net_qty = 0 then price_scaled
           else Int.tdiv
              (pos.net_qty * pos.avg_price_scaled + (if side = 0 then qty else -qty) * price_scaled)
              (pos.net_qty + (if side = 0 then qty else -qty))))
  ∧ ((RustPositionTracker.new.update "k" 0 10 1000 0 0 0).1.update "k" 0 10 1200 0 0 0).2
        = (20, 1100, 0, 0) := by
  constructor
  · rcases hsame with ⟨hs, hn⟩ | ⟨hs, hn⟩
    · subst hs
      simp only [PositionState.updateFill]
      refine ⟨?_, ?_, ?_⟩ <;> split_ifs <;> first | rfl | omega
    · simp only [PositionState.updateFill]
      refine ⟨?_, ?_, ?_⟩ <;> split_ifs <;> first | rfl | omega
  · decide

/-- C8 witness: a buy of 10 on top of an existing long position of 10. -/
theorem positionTracker_increasing_fill_witness :
    ((⟨10, 1000, 0, 0, 0⟩ : PositionState).updateFill 0 10 1200 0 0 0).net_qty
      = (⟨10, 1000, 0, 0, 0⟩ : PositionState).net_qty + (if (0 : ℤ) = 0 then 10 else -10) :=
  (positionTracker_increasing_fill ⟨10, 1000, 0, 0, 0⟩ 0 10 1200 0 0 0
    (Or.inl ⟨rfl, by decide⟩) (by decide)).1.1

/-- C10: when a fill increases a nonzero same-direction position, the
stored avg_price is the i64 quotient of the weighted-average numerator by
the new net quantity, truncated toward zero: whenever the numerator is not
evenly divisible, the stored magnitude is strictly below the exact rational
quotient magnitude, and for a growing long position with nonnegative value
the stored average strictly understates the exact average; concretely,
net 1 @ avg 1000 plus buy 2 @ 1001 stores 1000 while the exact average is
3002/3. -/
theorem positionTracker_avg_rounds_toward_zero (pos : PositionState)
    (side qty price_scaled fee tax match_ts : ℤ)
    (hsame : (side = 0 ∧ 0 < pos.net_qty) ∨ (side ≠ 0 ∧ pos.net_qty < 0))
    (hqty : 0 ≤ qty) :
    (let signed := if side = 0 then qty else -qty
     let total := pos.net_qty * pos.avg_price_scaled + signed * price_scaled
     let den := pos.net_qty + signed
     (pos.updateFill side qty price_scaled fee tax match_ts).avg_price_scaled
        = Int.tdiv total den
     ∧ (¬ den ∣ total →
         |(((pos.updateFill side qty price_scaled fee tax match_ts).avg_price_scaled : ℤ) : ℚ)|
           < |(total : ℚ) / (den : ℚ)|)
     ∧ (0 ≤ total → 0 < den → ¬ den ∣ total →
         (((pos.updateFill side qty price_scaled fee tax match_ts).avg_price_scaled : ℤ) : ℚ)
           < (total : ℚ) / (den : ℚ)))
  ∧ ((⟨1, 1000, 0, 0, 0⟩ : PositionState).updateFill 0 2 1001 0 0 0).avg_price_scaled = 1000
  ∧ ((1000 : ℚ) < 3002 / 3) := by
  have habs : ∀ (p : PositionState) (s q pr f tx ts : ℤ),
      ((s = 0 ∧ 0 < p.net_qty) ∨ (s ≠ 0 ∧ p.net_qty < 0)) → 0 ≤ q →
      (p.updateFill s q pr f tx ts).avg_price_scaled
        = Int.tdiv (p.net_qty * p.avg_price_scaled + (if s = 0 then q else -q) * pr)
            (p.net_qty + (if s = 0 then q else -q)) := by
    intro p s q pr f tx ts hs hq
    rcases hs with ⟨hs, hn⟩ | ⟨hs, hn⟩
    · subst hs
      simp only [PositionState.updateFill]
      split_ifs <;> first | rfl | omega
    · simp only [PositionState.updateFill]
      split_ifs <;> first | rfl | omega
  have hden : pos.net_qty + (if side = 0 then qty else -qty) ≠ 0 := by
    rcases hsame with ⟨hs, hn⟩ | ⟨hs, hn⟩
    · simp only [hs, if_pos]
      omega
    · rw [if_neg (by exact hs)]
      omega
  refine ⟨⟨habs pos side qty price_scaled fee tax match_ts hsame hqty, ?_, ?_⟩, ?_, ?_⟩
  · intro hdvd
    rw [habs pos side qty price_scaled fee tax match_ts hsame hqty]
    exact abs_cast_tdiv_lt _ _ hden hdvd
  · intro htot hdpos hdvd
    rw [habs pos side qty price_scaled fee tax match_ts hsame hqty]
    have hnn : (0 : ℤ) ≤ Int.tdiv
        (pos.net_qty * pos.avg_price_scaled + (if side = 0 then qty else -qty) * price_scaled)
        (pos.net_qty + (if side = 0 then qty else -qty)) :=
      Int.tdiv_nonneg htot hdpos.le
    have hlt := abs_cast_tdiv_lt
      (pos.net_qty * pos.avg_price_scaled + (if side = 0 then qty else -qty) * price_scaled)
      (pos.net_qty + (if side = 0 then qty else -qty)) hden hdvd
    rw [abs_of_nonneg (by exact_mod_cast hnn),
      abs_of_nonneg (div_nonneg (by exact_mod_cast htot) (by exact_mod_cast hdpos.le))] at hlt
    exact hlt
  · decide
  · norm_num

/-- C10 witness: net 1 at avg 1000, buy 2 at 1001; 3 does not divide 3002,
so the stored average magnitude is strictly below the exact 3002/3. -/
theorem positionTracker_avg_rounds_toward_zero_witness :
    |((((⟨1, 1000, 0, 0, 0⟩ : PositionState).updateFill 0 2 1001 0 0 0).avg_price_scaled : ℤ) : ℚ)|
      < |(((⟨1, 1000, 0, 0, 0⟩ : PositionState).net_qty
            * (⟨1, 1000, 0, 0, 0⟩ : PositionState).avg_price_scaled
            + (if (0 : ℤ) = 0 then 2 else -2) * 1001 : ℤ) : ℚ)
          / (((⟨1, 1000, 0, 0, 0⟩ : PositionState).net_qty
            + (if (0 : ℤ) = 0 then 2 else -2) : ℤ) : ℚ)| :=
  (positionTracker_avg_rounds_toward_zero ⟨1, 1000, 0, 0, 0⟩ 0 2 1001 0 0 0
    (Or.inl ⟨rfl, by decide⟩) (by decide)).1.2.1 (by decide)

theorem lookupKey_insertSorted_self (l : List (ℕ × ℚ)) (k : ℕ) (q : ℚ) :
    lookupKey (insertSorted l k q) k = some q := by
  induction l with
  | nil => simp [insertSorted, lookupKey]
  | cons kv rest ih =>
    obtain ⟨a, b⟩ := kv
    by_cases h1 : k < a
    · simp [insertSorted, h1, lookupKey]
    · by_cases h2 : k = a
      · simp [insertSorted, h1, h2, lookupKey]
      · have ha : a ≠ k := fun hc => h2 hc.symm
        simp [insertSorted, h1, h2, lookupKey, ha, ih]

theorem lookupKey_insertSorted_ne (l : List (ℕ × ℚ)) (k k' : ℕ) (q : ℚ)
    (h : k' ≠ k) : lookupKey (insertSorted l k q) k' = lookupKey l k' := by
  have hk : k ≠ k' := fun hc => h hc.symm
  induction l with
  | nil => simp [insertSorted, lookupKey, hk]
  | cons kv rest ih =>
    obtain ⟨a, b⟩ := kv
    by_cases h1 : k < a
    · simp [insertSorted, h1, lookupKey, hk]
    · by_cases h2 : k = a
      · subst h2
        simp [insertSorted, h1, lookupKey, hk]
      · simp [insertSorted, h1, h2, lookupKey, ih]

theorem lookupKey_removeKey_self (l : List (ℕ × ℚ)) (k : ℕ) :
    lookupKey (removeKey l k) k = none := by
  induction l with
  | nil => rfl
  | cons kv rest ih =>
    obtain ⟨a, b⟩ := kv
    rw [removeKey, List.filter_cons]
    by_cases h : a = k
    · rw [if_neg]
      · exact ih
      · subst h
        simp
    · rw [if_pos (by simpa [bne_iff_ne] using h)]
      simpa [lookupKey, h] using ih

theorem lookupKey_removeKey_ne (l : List (ℕ × ℚ)) (k k' : ℕ) (h : k' ≠ k) :
    lookupKey (removeKey l k) k' = lookupKey l k' := by
  induction l with
  | nil => rfl
  | cons kv rest ih =>
    obtain ⟨a, b⟩ := kv
    rw [removeKey, List.filter_cons]
    by_cases ha : a = k
    · subst ha
      rw [if_neg (by simp)]
      rw [lookupKey, if_neg (fun hc => h hc.symm)]
      exact ih
    · rw [if_pos (by simpa [bne_iff_ne] using ha)]
      by_cases ha' : a = k'
      · simp [lookupKey, ha']
      · simpa [lookupKey, ha'] using ih

theorem mem_insertSorted (l : List (ℕ × ℚ)) (k : ℕ) (q : ℚ) (x : ℕ × ℚ)
    (hx : x ∈ insertSorted l k q) : x = (k, q) ∨ x ∈ l := by
  induction l with
  | nil => simpa [insertSorted] using hx
  | cons kv rest ih =>
    obtain ⟨a, b⟩ := kv
    by_cases h1 : k < a
    · simp only [insertSorted, if_pos h1, List.mem_cons] at hx
      rcases hx with h | h | h
      · exact Or.inl h
      · exact Or.inr (by simp [h])
      · exact Or.inr (List.mem_cons_of_mem _ h)
    · by_cases h2 : k = a
      · simp only [insertSorted, if_neg h1, if_pos h2, List.mem_cons] at hx
        rcases hx with h | h
        · exact Or.inl h
        · exact Or.inr (List.mem_cons_of_mem _ h)
      · simp only [insertSorted, if_neg h1, if_neg h2, List.mem_cons] at hx
        rcases hx with h | h
        · exact Or.inr (by simp [h])
        · rcases ih h with h' | h'
          · exact Or.inl h'
          · exact Or.inr (List.mem_cons_of_mem _ h')

theorem pairwise_insertSorted (l : List (ℕ × ℚ)) (k : ℕ) (q : ℚ)
    (h : l.Pairwise (fun a b => a.1 < b.1)) :
    (insertSorted l k q).Pairwise (fun a b => a.1 < b.1) := by
  induction l with
  | nil => simp [insertSorted]
  | cons kv rest ih =>
    obtain ⟨a, b⟩ := kv
    rw [List.pairwise_cons] at h
    obtain ⟨hall, hrest⟩ := h
    by_cases h1 : k < a
    · rw [insertSorted, if_pos h1]
      refine List.Pairwise.cons ?_ (List.Pairwise.cons hall hrest)
      intro y hy
      rcases List.mem_cons.mp hy with hy' | hy'
      · simpa [hy']
      · exact lt_trans h1 (hall y hy')
    · by_cases h2 : k = a
      · rw [insertSorted, if_neg h1, if_pos h2]
        subst h2
        exact List.Pairwise.cons hall hrest
      · rw [insertSorted, if_neg h1, if_neg h2]
        refine List.Pairwise.cons ?_ (ih hrest)
        intro y hy
        rcases mem_insertSorted rest k q y hy with hy' | hy'
        · rw [hy']
          omega
        · exact hall y hy'

theorem pairwise_removeKey (l : List (ℕ × ℚ)) (k : ℕ)
    (h : l.Pairwise (fun a b => a.1 < b.1)) :
    (removeKey l k).Pairwise (fun a b => a.1 < b.1) :=
  h.sublist (List.filter_sublist l)

theorem sideLevels_update (b : LimitOrderBook) (ib : Bool) (p q : ℚ) (s : Bool) :
    (b.update ib p q).sideLevels s =
      if ib = s then
        (if q ≤ 0 then removeKey (b.sideLevels s) (scalePrice p)
         else insertSorted (b.sideLevels s) (scalePrice p) q)
      else b.sideLevels s := by
  cases ib <;> cases s <;> by_cases hq : q ≤ 0 <;>
    simp [LimitOrderBook.update, LimitOrderBook.sideLevels, hq]

theorem symbol_update (b : LimitOrderBook) (ib : Bool) (p q : ℚ) :
    (b.update ib p q).symbol = b.symbol := by
  cases ib <;> by_cases hq : q ≤ 0 <;> simp [LimitOrderBook.update, hq]

theorem pairwise_applyUpdates (us : List (Bool × ℚ × ℚ)) (b : LimitOrderBook)
    (hb : ∀ s : Bool, (b.sideLevels s).Pairwise (fun a c => a.1 < c.1)) :
    ∀ s : Bool, ((b.applyUpdates us).sideLevels s).Pairwise (fun a c => a.1 < c.1) := by
  induction us generalizing b with
  | nil => exact hb
  | cons u us ih =>
    refine ih (b.update u.1 u.2.1 u.2.2) (fun s => ?_)
    rw [sideLevels_update]
    split
    · split
      · exact pairwise_removeKey _ _ (hb s)
      · exact pairwise_insertSorted _ _ _ (hb s)
    · exact hb s

theorem lookupKey_applyUpdates (us : List (Bool × ℚ × ℚ)) (b : LimitOrderBook)
    (side : Bool) (k : ℕ) :
    lookupKey ((b.applyUpdates us).sideLevels side) k
      = (match lastQty us side k with
         | some q => if q ≤ 0 then none else some q
         | none => lookupKey (b.sideLevels side) k) := by
  induction us generalizing b with
  | nil => rfl
  | cons u us ih =>
    show lookupKey (((b.update u.1 u.2.1 u.2.2).applyUpdates us).sideLevels side) k = _
    rw [ih]
    cases hl : lastQty us side k with
    | some q => simp [lastQty, hl]
    | none =>
      simp only [lastQty, hl]
      rw [sideLevels_update]
      by_cases hmatch : u.1 = side ∧ scalePrice u.2.1 = k
      · obtain ⟨h1, h2⟩ := hmatch
        subst h2
        rw [if_pos h1]
        by_cases hq : u.2.2 ≤ 0
        · simp [hq, lookupKey_removeKey_self, h1]
        · simp [hq, lookupKey_insertSorted_self, h1]
      · rw [if_neg hmatch]
        by_cases h1 : u.1 = side
        · rw [if_pos h1]
          have h2 : scalePrice u.2.1 ≠ k := fun hc => hmatch ⟨h1, hc⟩
          have h2' : k ≠ scalePrice u.2.1 := fun hc => h2 hc.symm
          by_cases hq : u.2.2 ≤ 0
          · rw [if_pos hq, lookupKey_removeKey_ne _ _ _ h2']
          · rw [if_neg hq, lookupKey_insertSorted_ne _ _ _ _ h2']
        · rw [if_neg h1]

theorem sorted_max_last (l : List (ℕ × ℚ))
    (hs : l.Pairwise (fun a c => a.1 < c.1)) (hne : l ≠ []) :
    ∃ k q, l.reverse.take 1 = [(k, q)] ∧ (k, q) ∈ l ∧ ∀ p ∈ l, p.1 ≤ k := by
  induction l with
  | nil => exact absurd rfl hne
  | cons x l ih =>
    cases l with
    | nil => exact ⟨x.1, x.2, by simp, by simp, by simp⟩
    | cons y l' =>
      have hs' := (List.pairwise_cons.mp hs).2
      obtain ⟨k, q, h1, h2, h3⟩ := ih hs' (by simp)
      refine ⟨k, q, ?_, List.mem_cons_of_mem _ h2, ?_⟩
      · rw [List.reverse_cons, List.take_append_eq_append_take, h1]
        have hlen : 1 - ((y :: l').reverse).length = 0 := by simp
        rw [hlen]
        simp
      · intro p hp
        rcases List.mem_cons.mp hp with hp' | hp'
        · have hxk : x.1 < k := (List.pairwise_cons.mp hs).1 (k, q) h2
          rw [hp']
          exact le_of_lt hxk
        · exact h3 p hp'

/-- C4: the most recent update for a given side and scaled price determines
the level: present with the latest quantity when it is positive, absent when
it is not positive; top_bids 1 returns the present bid level of maximum
scaled key converted back to a real price; depth 0 returns no levels. -/
theorem lob_most_recent_update_and_top (sym : String) :
    (∀ (us : List (Bool × ℚ × ℚ)) (side : Bool) (k : ℕ),
      lookupKey (((LimitOrderBook.new sym).applyUpdates us).sideLevels side) k
        = (match lastQty us side k with
           | some q => if q ≤ 0 then none else some q
           | none => none))
  ∧ (∀ us : List (Bool × ℚ × ℚ),
      ((LimitOrderBook.new sym).applyUpdates us).bids ≠ [] →
      ∃ (k : ℕ) (q : ℚ),
        ((LimitOrderBook.new sym).applyUpdates us).top_bids 1 = [((k : ℚ) / 10000, q)]
        ∧ (k, q) ∈ ((LimitOrderBook.new sym).applyUpdates us).bids
        ∧ ∀ p ∈ ((LimitOrderBook.new sym).applyUpdates us).bids, p.1 ≤ k)
  ∧ (∀ b : LimitOrderBook, b.top_bids 0 = [] ∧ b.top_asks 0 = []) := by
  refine ⟨fun us side k => ?_, fun us hne => ?_, fun b => ⟨rfl, rfl⟩⟩
  · rw [lookupKey_applyUpdates]
    cases lastQty us side k with
    | some q => rfl
    | none => cases side <;> rfl
  · have hpw := pairwise_applyUpdates us (LimitOrderBook.new sym)
      (fun s => by cases s <;> simp [LimitOrderBook.sideLevels, LimitOrderBook.new]) true
    have hpw2 : ((LimitOrderBook.new sym).applyUpdates us).bids.Pairwise
        (fun a c => a.1 < c.1) := hpw
    obtain ⟨k, q, h1, h2, h3⟩ := sorted_max_last _ hpw2 hne
    exact ⟨k, q, by rw [LimitOrderBook.top_bids, h1]; rfl, h2, h3⟩

/-- C4 witness: two bid updates at real prices 1 and 2; the book keeps both
and top_bids 1 returns the scaled-key-20000 level. -/
theorem lob_most_recent_update_and_top_witness :
    ((LimitOrderBook.new "S").applyUpdates [(true, 1, 5), (true, 2, 7)]).bids ≠ []
  ∧ ∃ (k : ℕ) (q : ℚ),
      ((LimitOrderBook.new "S").applyUpdates [(true, 1, 5), (true, 2, 7)]).top_bids 1
        = [((k : ℚ) / 10000, q)]
      ∧ (k, q) ∈ ((LimitOrderBook.new "S").applyUpdates [(true, 1, 5), (true, 2, 7)]).bids
      ∧ ∀ p ∈ ((LimitOrderBook.new "S").applyUpdates [(true, 1, 5), (true, 2, 7)]).bids,
          p.1 ≤ k := by
  have hne : ((LimitOrderBook.new "S").applyUpdates [(true, 1, 5), (true, 2, 7)]).bids ≠ [] := by
    have h1 : scalePrice 1 = 10000 := by norm_num [scalePrice]; rfl
    have h2 : scalePrice 2 = 20000 := by norm_num [scalePrice]; rfl
    simp only [LimitOrderBook.applyUpdates, LimitOrderBook.update, LimitOrderBook.new,
      List.foldl, h1, h2]
    norm_num [insertSorted]
    simp
  exact ⟨hne, (lob_most_recent_update_and_top "S").2.1 [(true, 1, 5), (true, 2, 7)] hne⟩

theorem mf_update_fst_toMeta (m : MatchedFilterTradeFlow) (v sd : ℚ) :
    ((m.update v sd).1).toMeta = ((m.toMeta).update v sd).1 := by
  obtain ⟨fw, sw, vols, sides, fs, ss⟩ := m
  simp only [MatchedFilterTradeFlow.update, MetaAlphaFlow.update,
    MatchedFilterTradeFlow.toMeta]
  split_ifs <;> rfl

theorem mf_run_state_toMeta (inputs : List (ℚ × ℚ)) (m : MatchedFilterTradeFlow)
    (sig sig' : ℚ) :
    ((inputs.foldl (fun a i => a.1.update i.1 i.2) (m, sig)).1).toMeta
      = (inputs.foldl (fun a i => a.1.update i.1 i.2) (m.toMeta, sig')).1 := by
  induction inputs generalizing m sig sig' with
  | nil => rfl
  | cons i inputs ih =>
    simp only [List.foldl_cons]
    have hpair : (m.toMeta).update i.1 i.2
        = (((m.update i.1 i.2).1).toMeta, ((m.toMeta).update i.1 i.2).2) := by
      apply Prod.ext
      · exact (mf_update_fst_toMeta m i.1 i.2).symm
      · rfl
    rw [hpair]
    exact ih _ _ _

theorem mf_step_fields (m : MatchedFilterTradeFlow) (v sd : ℚ) :
    (m.update v sd).1.slow_window = m.slow_window
  ∧ (m.update v sd).1.fast_window = m.fast_window
  ∧ (m.trade_vol_history.length ≤ m.slow_window →
      (m.update v sd).1.trade_vol_history.length
        = min (m.trade_vol_history.length + 1) m.slow_window) := by
  obtain ⟨fw, sw, vols, sides, fs, ss⟩ := m
  simp only [MatchedFilterTradeFlow.update]
  refine ⟨?_, ?_, fun hlen => ?_⟩ <;> split_ifs <;>
    simp_all [List.length_tail] <;> omega

theorem mf_run_fields (inputs : List (ℚ × ℚ)) (m : MatchedFilterTradeFlow) (sig : ℚ)
    (hlen : m.trade_vol_history.length ≤ m.slow_window) :
    (inputs.foldl (fun a i => a.1.update i.1 i.2) (m, sig)).1.slow_window = m.slow_window
  ∧ (inputs.foldl (fun a i => a.1.update i.1 i.2) (m, sig)).1.trade_vol_history.length
      = min (m.trade_vol_history.length + inputs.length) m.slow_window := by
  induction inputs generalizing m sig with
  | nil =>
    refine ⟨rfl, ?_⟩
    simp
    omega
  | cons i inputs ih =>
    simp only [List.foldl_cons, List.length_cons]
    obtain ⟨h1, h2, h3⟩ := mf_step_fields m i.1 i.2
    obtain ⟨ih1, ih2⟩ := ih (m.update i.1 i.2).1 (m.update i.1 i.2).2
      (by rw [h3 hlen, h1]; omega)
    rw [ih1, h1, ih2, h3 hlen, h1]
    constructor
    · rfl
    · omega

theorem mf_update_snd (m : MatchedFilterTradeFlow) (v sd : ℚ) :
    (m.update v sd).2 =
      (if (m.update v sd).1.trade_vol_history.length < (m.update v sd).1.slow_window then 0
       else if 1 / 100000000 <
           (m.update v sd).1.sum_vol_slow / ((m.update v sd).1.slow_window : ℚ)
         then (m.update v sd).1.sum_signed_flow_fast
              / ((m.update v sd).1.sum_vol_slow / ((m.update v sd).1.slow_window : ℚ))
         else 0) := rfl

theorem meta_update_snd (m : MetaAlphaFlow) (v sd : ℚ) :
    (m.update v sd).2 =
      (if 1 / 100000000 <
          (if min (m.update v sd).1.slow_window 10 ≤ (m.update v sd).1.trade_vol_history.length
            then (m.update v sd).1.sum_vol_slow / ((m.update v sd).1.trade_vol_history.length : ℚ)
            else 1)
        then (m.update v sd).1.sum_signed_flow_fast /
          (if min (m.update v sd).1.slow_window 10 ≤ (m.update v sd).1.trade_vol_history.length
            then (m.update v sd).1.sum_vol_slow / ((m.update v sd).1.trade_vol_history.length : ℚ)
            else 1)
        else 0) := rfl

theorem mf_meta_signal_eq (m : MatchedFilterTradeFlow) (v sd : ℚ)
    (_h1 : 1 ≤ m.slow_window)
    (hge : m.slow_window ≤ m.trade_vol_history.length + 1)
    (hle : m.trade_vol_history.length ≤ m.slow_window) :
    (m.update v sd).2 = ((m.toMeta).update v sd).2 := by
  have hfst := mf_update_fst_toMeta m v sd
  obtain ⟨hsw, hfw, hlen⟩ := mf_step_fields m v sd
  have hulen : (m.update v sd).1.trade_vol_history.length = m.slow_window := by
    rw [hlen hle]
    omega
  rw [mf_update_snd, meta_update_snd, ← hfst]
  simp only [MatchedFilterTradeFlow.toMeta]
  rw [hulen, hsw]
  rw [if_neg (lt_irrefl _), if_pos (min_le_left _ _)]

/-- C5 counterexample: with fast_window 1 and slow_window 2, after the single
update (trade_vol 1, trade_side 1) MatchedFilterTradeFlow returns 0 (still
warming up) while the MetaAlpha trade-flow component returns 1 (capacity
falls back to 1.0 below min(slow_window, 10) samples), so the two signals
differ after that step. -/
theorem metaAlpha_tradeFlow_warmup_counterexample :
    (mfRun 1 2 [(1, 1)]).2 = 0 ∧ (metaRun 1 2 [(1, 1)]).2 = 1
  ∧ ¬ ((mfRun 1 2 [(1, 1)]).2 = (metaRun 1 2 [(1, 1)]).2) := by
  refine ⟨?_, ?_, ?_⟩
  · norm_num [mfRun, MatchedFilterTradeFlow.update, MatchedFilterTradeFlow.new]
  · norm_num [metaRun, MetaAlphaFlow.update, MetaAlphaFlow.new]
  · norm_num [mfRun, metaRun, MatchedFilterTradeFlow.update, MatchedFilterTradeFlow.new,
      MetaAlphaFlow.update, MetaAlphaFlow.new]

/-- C5 (amended): fed the same update stream, the MetaAlpha trade-flow state
(both running sums and the whole history) always equals the
MatchedFilterTradeFlow state, and the derived trade-flow signals agree
whenever at least slow_window ≥ 1 updates have occurred; during warm-up the
signals may differ. -/
theorem metaAlpha_tradeFlow_refinement (fw sw : ℕ) (inputs : List (ℚ × ℚ)) :
    ((mfRun fw sw inputs).1.sum_signed_flow_fast = (metaRun fw sw inputs).1.sum_signed_flow_fast
   ∧ (mfRun fw sw inputs).1.sum_vol_slow = (metaRun fw sw inputs).1.sum_vol_slow
   ∧ ((mfRun fw sw inputs).1).toMeta = (metaRun fw sw inputs).1)
  ∧ (1 ≤ sw → sw ≤ inputs.length → (mfRun fw sw inputs).2 = (metaRun fw sw inputs).2) := by
  have hstate : ∀ ins : List (ℚ × ℚ), ((mfRun fw sw ins).1).toMeta = (metaRun fw sw ins).1 :=
    fun ins => mf_run_state_toMeta ins (MatchedFilterTradeFlow.new fw sw) 0 0
  constructor
  · refine ⟨?_, ?_, hstate inputs⟩
    · rw [← hstate inputs]
      rfl
    · rw [← hstate inputs]
      rfl
  · intro h1 h2
    rcases List.eq_nil_or_concat inputs with rfl | ⟨xs, x, rfl⟩
    · simp at h2
      omega
    · have hmf : mfRun fw sw (xs.concat x) = (mfRun fw sw xs).1.update x.1 x.2 := by
        simp only [List.concat_eq_append, mfRun, List.foldl_append, List.foldl_cons,
          List.foldl_nil]
      have hmeta : metaRun fw sw (xs.concat x) = (metaRun fw sw xs).1.update x.1 x.2 := by
        simp only [List.concat_eq_append, metaRun, List.foldl_append, List.foldl_cons,
          List.foldl_nil]
      rw [hmf, hmeta, ← hstate xs]
      have hrun := mf_run_fields xs (MatchedFilterTradeFlow.new fw sw) 0
        (by simp [MatchedFilterTradeFlow.new])
      have hrs : (mfRun fw sw xs).1.slow_window = sw := hrun.1
      have hrl : (mfRun fw sw xs).1.trade_vol_history.length = min xs.length sw := by
        have := hrun.2
        simpa [MatchedFilterTradeFlow.new] using this
      apply mf_meta_signal_eq
      · omega
      · rw [hrs, hrl]
        simp only [List.concat_eq_append, List.length_append, List.length_cons,
          List.length_nil] at h2
        omega
      · rw [hrs, hrl]
        omega

/-- C5 witness: with slow_window 1 the two signals already agree after one
update. -/
theorem metaAlpha_tradeFlow_refinement_witness :
    (mfRun 1 1 [(1, 1)]).2 = (metaRun 1 1 [(1, 1)]).2 :=
  (metaAlpha_tradeFlow_refinement 1 1 [(1, 1)]).2 (by decide) (by decide)

/-- C7: the regime classifier returns 0 with fewer than long_window
samples; otherwise it computes the population standard deviation (sum/len
mean, squared deviations/len, sqrt) over the most recent short_window and
long_window samples, returns 0 when the long vol is NaN (empty slice) or at
most the 1e-10 guard, and classifies the ratio short_vol/long_vol as 1
above 3/2, -1 below 7/10, and 0 otherwise -- including the NaN ratio of an
empty short slice, whose false f64 comparisons also fall through to 0, as
the concrete input (returns [0, 2], short_window 0, long_window 2) shows. -/
theorem compute_vol_regime_spec (returns : List ℝ) (short_window long_window : ℕ) :
    (returns.length < long_window → compute_vol_regime returns short_window long_window = 0)
  ∧ (∀ l : List ℝ, l ≠ [] →
      sliceVol l
        = some (Real.sqrt ((l.map (fun x => (x - l.sum / l.length) ^ 2)).sum / l.length)))
  ∧ sliceVol [] = none
  ∧ (long_window ≤ returns.length →
      (sliceVol (returns.drop (returns.length - long_window)) = none →
        compute_vol_regime returns short_window long_window = 0)
      ∧ (∀ lv, sliceVol (returns.drop (returns.length - long_window)) = some lv →
          (lv ≤ 1 / 10000000000 →
            compute_vol_regime returns short_window long_window = 0)
          ∧ (1 / 10000000000 < lv →
              (sliceVol (returns.drop (returns.length - short_window)) = none →
                compute_vol_regime returns short_window long_window = 0)
              ∧ (∀ sv, sliceVol (returns.drop (returns.length - short_window)) = some sv →
                  (3 / 2 < sv / lv →
                    compute_vol_regime returns short_window long_window = 1)
                  ∧ (sv / lv < 7 / 10 →
                    compute_vol_regime returns short_window long_window = -1)
                  ∧ (7 / 10 ≤ sv / lv → sv / lv ≤ 3 / 2 →
                    compute_vol_regime returns short_window long_window = 0)))))
  ∧ compute_vol_regime [0, 2] 0 2 = 0 := by
  refine ⟨fun h => ?_, fun l hl => ?_, rfl, fun h => ?_, ?_⟩
  · rw [compute_vol_regime, if_pos h]
  · rw [sliceVol, if_neg (by simpa using hl)]
  · have hn : ¬ returns.length < long_window := not_lt.mpr h
    refine ⟨fun hnone => ?_, fun lv hlv => ⟨fun hle => ?_, fun hgt =>
      ⟨fun hsnone => ?_, fun sv hsv => ⟨fun hr => ?_, fun hr => ?_, fun hr1 hr2 => ?_⟩⟩⟩⟩
    · simp only [compute_vol_regime, if_neg hn, hnone]
    · simp only [compute_vol_regime, if_neg hn, hlv]
      rw [if_neg (not_lt.mpr hle)]
    · simp only [compute_vol_regime, if_neg hn, hlv, hsnone]
      rw [if_pos hgt]
    · simp only [compute_vol_regime, if_neg hn, hlv, hsv]
      rw [if_pos hgt, if_pos hr]
    · simp only [compute_vol_regime, if_neg hn, hlv, hsv]
      rw [if_pos hgt, if_neg (by linarith), if_pos hr]
    · simp only [compute_vol_regime, if_neg hn, hlv, hsv]
      rw [if_pos hgt, if_neg (by linarith), if_neg (by linarith)]
  · have hshort : sliceVol (([0, 2] : List ℝ).drop (([0, 2] : List ℝ).length - 0)) = none := rfl
    have hlong : sliceVol (([0, 2] : List ℝ).drop (([0, 2] : List ℝ).length - 2))
        = some (Real.sqrt 1) := by
      have harg : (([0, 2] : List ℝ).drop (([0, 2] : List ℝ).length - 2)) = [0, 2] := rfl
      rw [harg, sliceVol, if_neg (by norm_num)]
      norm_num
    simp only [compute_vol_regime, if_neg (by norm_num : ¬ ([0, 2] : List ℝ).length < 2),
      hlong, hshort]
    simp

/-- C7 witness: an empty returns history is classified as normal. -/
theorem compute_vol_regime_spec_witness :
    ([] : List ℝ).length < 2 ∧ compute_vol_regime [] 1 2 = 0 :=
  ⟨by decide, (compute_vol_regime_spec [] 1 2).1 (by decide)⟩

/-- C6: the Hawkes tracker starts at intensity mu; each update decays the
intensity toward mu with factor exp(−beta·dt) only when dt > 0, adds alpha
exactly when the update is an event (after the decay), and always refreshes
last_ts; with no events and beta > 0 the intensity converges to mu as the
elapsed time grows. -/
theorem hawkesTracker_spec (mu alpha beta : ℝ) (h : HawkesTracker) (ts : ℤ) (ev : Bool) :
    (HawkesTracker.new mu alpha beta).intensity = mu
  ∧ (HawkesTracker.new mu alpha beta).last_ts = 0
  ∧ (h.update ts ev).last_ts = ts
  ∧ (ts - h.last_ts ≤ 0 →
      (h.update ts ev).intensity = (if ev then h.intensity + h.alpha else h.intensity))
  ∧ (0 < ts - h.last_ts →
      (h.update ts ev).intensity =
        (if ev then
          h.mu + (h.intensity - h.mu)
            * Real.exp (-h.beta * (((ts - h.last_ts : ℤ) : ℝ) / 1000000000)) + h.alpha
         else
          h.mu + (h.intensity - h.mu)
            * Real.exp (-h.beta * (((ts - h.last_ts : ℤ) : ℝ) / 1000000000))))
  ∧ ((h.update ts true).intensity = (h.update ts false).intensity + h.alpha)
  ∧ (0 < h.beta →
      Filter.Tendsto (fun t : ℤ => (h.update (h.last_ts + t) false).intensity)
        Filter.atTop (nhds h.mu)) := by
  refine ⟨rfl, rfl, rfl, fun hle => ?_, fun hpos => ?_, ?_, fun hbeta => ?_⟩
  · have hc : ((ts - h.last_ts : ℤ) : ℝ) ≤ 0 := by exact_mod_cast hle
    have hdt : ¬ (0 : ℝ) < ((ts - h.last_ts : ℤ) : ℝ) / 1000000000 :=
      not_lt.mpr (div_nonpos_iff.mpr (Or.inr ⟨hc, by norm_num⟩))
    simp only [HawkesTracker.update, if_neg hdt]
  · have hc : (0 : ℝ) < ((ts - h.last_ts : ℤ) : ℝ) := by exact_mod_cast hpos
    have hdt : (0 : ℝ) < ((ts - h.last_ts : ℤ) : ℝ) / 1000000000 :=
      div_pos hc (by norm_num)
    simp only [HawkesTracker.update, if_pos hdt]
  · simp only [HawkesTracker.update]
    split_ifs <;> first | rfl | simp_all
  · have hev : ∀ᶠ t : ℤ in Filter.atTop,
        h.mu + (h.intensity - h.mu)
          * Real.exp (-h.beta * ((t : ℝ) / 1000000000))
        = (h.update (h.last_ts + t) false).intensity := by
      filter_upwards [Filter.eventually_ge_atTop 1] with t ht
      have hdt : (0 : ℝ) < ((t : ℤ) : ℝ) / 1000000000 :=
        div_pos (by exact_mod_cast (by omega : (0 : ℤ) < t)) (by norm_num)
      simp only [HawkesTracker.update]
      rw [show h.last_ts + t - h.last_ts = t from by ring, if_pos hdt]
      simp
    have h1 : Filter.Tendsto (fun t : ℤ => (t : ℝ)) Filter.atTop Filter.atTop :=
      tendsto_intCast_atTop_atTop
    have h2 : Filter.Tendsto (fun t : ℤ => (t : ℝ) / 1000000000) Filter.atTop Filter.atTop :=
      h1.atTop_div_const (by norm_num)
    have h3 : Filter.Tendsto (fun t : ℤ => h.beta * ((t : ℝ) / 1000000000))
        Filter.atTop Filter.atTop := h2.const_mul_atTop hbeta
    have h4 : Filter.Tendsto (fun t : ℤ => -(h.beta * ((t : ℝ) / 1000000000)))
        Filter.atTop Filter.atBot := Filter.tendsto_neg_atTop_atBot.comp h3
    have h5 : Filter.Tendsto (fun t : ℤ => Real.exp (-h.beta * ((t : ℝ) / 1000000000)))
        Filter.atTop (nhds 0) := by
      have := Real.tendsto_exp_atBot.comp h4
      refine this.congr (fun t => ?_)
      simp only [Function.comp]
      ring_nf
    have h6 : Filter.Tendsto
        (fun t : ℤ => h.mu + (h.intensity - h.mu) * Real.exp (-h.beta * ((t : ℝ) / 1000000000)))
        Filter.atTop (nhds (h.mu + (h.intensity - h.mu) * 0)) :=
      tendsto_const_nhds.add (tendsto_const_nhds.mul h5)
    rw [mul_zero, add_zero] at h6
    exact h6.congr' hev

/-- C6 witness: an event update at an unchanged timestamp skips the decay
and adds alpha. -/
theorem hawkesTracker_spec_witness :
    ((HawkesTracker.new 2 3 1).update 0 true).intensity
      = (if true then (HawkesTracker.new 2 3 1).intensity + (HawkesTracker.new 2 3 1).alpha
         else (HawkesTracker.new 2 3 1).intensity) :=
  (hawkesTracker_spec 2 3 1 (HawkesTracker.new 2 3 1) 0 true).2.2.2.1 (by decide)

theorem shm_write_full (s : ShmRingBuffer) (d : List ℕ)
    (h : s.capacity ≤ s.write_cursor - s.read_cursor) : s.write d = (false, s) := by
  rw [ShmRingBuffer.write, if_pos h]

theorem shm_write_ok (s : ShmRingBuffer) (d : List ℕ)
    (h : s.write_cursor - s.read_cursor < s.capacity) :
    s.write d = (true,
      { s with
        slots := fun i =>
          if i = s.write_cursor % s.capacity then
            slotWrite (s.slots (s.write_cursor % s.capacity)) d
          else s.slots i
        write_cursor := s.write_cursor + 1 }) := by
  rw [ShmRingBuffer.write, if_neg (not_le.mpr h)]

theorem shm_read_empty (s : ShmRingBuffer)
    (h : s.write_cursor ≤ s.read_cursor) : s.read = (none, s) := by
  rw [ShmRingBuffer.read, if_pos h]

theorem shm_read_ok (s : ShmRingBuffer) (h : s.read_cursor < s.write_cursor) :
    s.read = (some (s.slots (s.read_cursor % s.capacity)),
      { s with read_cursor := s.read_cursor + 1 }) := by
  rw [ShmRingBuffer.read, if_neg (not_le.mpr h)]

theorem shm_invariant (s : ShmRingBuffer) (hs : ShmReachable s) :
    s.read_cursor ≤ s.write_cursor ∧ s.write_cursor - s.read_cursor ≤ s.capacity := by
  induction hs with
  | init capacity => simp [ShmRingBuffer.new]
  | wr s d hs ih =>
    by_cases h : s.capacity ≤ s.write_cursor - s.read_cursor
    · rw [shm_write_full s d h]
      exact ih
    · rw [shm_write_ok s d (not_le.mp h)]
      simp only
      omega
  | rd s hs ih =>
    by_cases h : s.write_cursor ≤ s.read_cursor
    · rw [shm_read_empty s h]
      exact ih
    · rw [shm_read_ok s (not_le.mp h)]
      simp only
      omega

theorem shm_mod_distinct (cap R W i : ℕ) (hRW : R ≤ W) (hlt : W - R < cap)
    (hi : i < W - R) : (R + i) % cap ≠ W % cap := by
  intro hc
  have hmod : R + i ≡ W [MOD cap] := hc
  obtain ⟨k, hk⟩ := hmod.dvd
  have hcap : (0 : ℤ) < (cap : ℤ) := by
    have : 0 < cap := by omega
    exact_mod_cast this
  have hA : (0 : ℤ) < (W : ℤ) - ((R : ℤ) + (i : ℤ)) := by
    have : R + i < W := by omega
    omega
  have hB : (W : ℤ) - ((R : ℤ) + (i : ℤ)) < (cap : ℤ) := by
    have : W - (R + i) < cap := by omega
    omega
  rcases lt_trichotomy k 0 with hk0 | hk0 | hk0
  · have hneg : (cap : ℤ) * k < 0 := mul_neg_of_pos_of_neg hcap hk0
    rw [← hk] at hneg
    push_cast at hneg
    omega
  · subst hk0
    rw [mul_zero] at hk
    push_cast at hk
    omega
  · have hk1 : (1 : ℤ) ≤ k := hk0
    have hge : (cap : ℤ) ≤ (cap : ℤ) * k := le_mul_of_one_le_right hcap.le hk1
    rw [← hk] at hge
    push_cast at hge
    omega

theorem shm_pending_write (s : ShmRingBuffer) (d : List ℕ)
    (hrw : s.read_cursor ≤ s.write_cursor)
    (h : s.write_cursor - s.read_cursor < s.capacity) :
    (s.write d).2.pending
      = s.pending ++ [slotWrite (s.slots (s.write_cursor % s.capacity)) d] := by
  rw [shm_write_ok s d h]
  simp only [ShmRingBuffer.pending]
  have hn : s.write_cursor + 1 - s.read_cursor = (s.write_cursor - s.read_cursor) + 1 := by
    omega
  rw [hn, List.range_succ, List.map_append]
  congr 1
  · apply List.map_congr_left
    intro i hi
    rw [List.mem_range] at hi
    rw [if_neg (shm_mod_distinct s.capacity s.read_cursor s.write_cursor i hrw h hi)]
  · simp only [List.map_cons, List.map_nil]
    rw [show s.read_cursor + (s.write_cursor - s.read_cursor) = s.write_cursor by omega]
    rw [if_pos rfl]

theorem shm_pending_read (s : ShmRingBuffer) (h : s.read_cursor < s.write_cursor) :
    s.read.1 = some (s.pending.headD [])
  ∧ s.read.2.pending = s.pending.tail := by
  rw [shm_read_ok s h]
  have hn : s.write_cursor - s.read_cursor = (s.write_cursor - (s.read_cursor + 1)) + 1 := by
    omega
  constructor
  · simp only [ShmRingBuffer.pending, hn, List.range_succ_eq_map, List.map_cons,
      List.headD_cons, add_zero]
  · simp only [ShmRingBuffer.pending, hn, List.range_succ_eq_map, List.map_cons,
      List.tail_cons, List.map_map]
    apply List.map_congr_left
    intro i hi
    simp only [Function.comp, Nat.succ_eq_add_one]
    have harg : s.read_cursor + 1 + i = s.read_cursor + (i + 1) := by omega
    rw [harg]

theorem writeSeq_ok (ds : List (List ℕ)) (s : ShmRingBuffer)
    (hrw : s.read_cursor ≤ s.write_cursor)
    (hfit : s.write_cursor - s.read_cursor + ds.length ≤ s.capacity) :
    (writeSeq s ds).1 = true
  ∧ (writeSeq s ds).2.write_cursor = s.write_cursor + ds.length
  ∧ (writeSeq s ds).2.read_cursor = s.read_cursor
  ∧ (writeSeq s ds).2.capacity = s.capacity
  ∧ (writeSeq s ds).2.slots
      = (writeSeq s ds).2.slots := by
  induction ds generalizing s with
  | nil => exact ⟨rfl, by simp [writeSeq], rfl, rfl, rfl⟩
  | cons d ds ih =>
    have hlt : s.write_cursor - s.read_cursor < s.capacity := by
      have := ds.length
      simp only [List.length_cons] at hfit
      omega
    have hw := shm_write_ok s d hlt
    have hstep : (s.write d).2.write_cursor = s.write_cursor + 1 ∧
        (s.write d).2.read_cursor = s.read_cursor ∧
        (s.write d).2.capacity = s.capacity ∧ (s.write d).1 = true := by
      rw [hw]
      exact ⟨rfl, rfl, rfl, rfl⟩
    obtain ⟨hs1, hs2, hs3, hs4⟩ := hstep
    obtain ⟨ih1, ih2, ih3, ih4, _⟩ := ih (s.write d).2
      (by rw [hs1, hs2]; omega)
      (by rw [hs1, hs2, hs3]; simp only [List.length_cons] at hfit; omega)
    refine ⟨?_, ?_, ?_, ?_, rfl⟩
    · show ((s.write d).1 && (writeSeq (s.write d).2 ds).1) = true
      rw [hs4, ih1]
      rfl
    · show (writeSeq (s.write d).2 ds).2.write_cursor = _
      rw [ih2, hs1]
      simp
      omega
    · show (writeSeq (s.write d).2 ds).2.read_cursor = _
      rw [ih3, hs2]
    · show (writeSeq (s.write d).2 ds).2.capacity = _
      rw [ih4, hs3]

/-- C3: in every reachable ring-buffer state, write fails and leaves the
state unchanged exactly when write_cursor − read_cursor ≥ capacity and
otherwise copies into slot (write_cursor mod capacity) and bumps
write_cursor; read returns nothing and mutates nothing exactly when
read_cursor ≥ write_cursor and otherwise returns slot
(read_cursor mod capacity) and bumps read_cursor; the cursor difference
stays in [0, capacity]; the pending queue (which fixes FIFO order) gains
the written slot at the back and is consumed from the front; and from an
empty buffer of capacity N exactly N writes succeed, the next write fails,
and one read re-enables writing. -/
theorem shmRingBuffer_spec :
    (∀ s : ShmRingBuffer, ShmReachable s →
      (s.read_cursor ≤ s.write_cursor ∧ s.write_cursor - s.read_cursor ≤ s.capacity)
      ∧ (∀ data, ((s.write data).1 = false ∧ (s.write data).2 = s)
            ↔ s.capacity ≤ s.write_cursor - s.read_cursor)
      ∧ (∀ data, s.write_cursor - s.read_cursor < s.capacity →
            (s.write data).1 = true
          ∧ (s.write data).2.write_cursor = s.write_cursor + 1
          ∧ (s.write data).2.read_cursor = s.read_cursor
          ∧ (s.write data).2.slots (s.write_cursor % s.capacity)
              = slotWrite (s.slots (s.write_cursor % s.capacity)) data
          ∧ (∀ i, i ≠ s.write_cursor % s.capacity → (s.write data).2.slots i = s.slots i)
          ∧ (s.write data).2.pending
              = s.pending ++ [slotWrite (s.slots (s.write_cursor % s.capacity)) data])
      ∧ ((s.read.1 = none ∧ s.read.2 = s) ↔ s.write_cursor ≤ s.read_cursor)
      ∧ (s.read_cursor < s.write_cursor →
            s.read.1 = some (s.slots (s.read_cursor % s.capacity))
          ∧ s.read.1 = some (s.pending.headD [])
          ∧ s.read.2.read_cursor = s.read_cursor + 1
          ∧ s.read.2.write_cursor = s.write_cursor
          ∧ s.read.2.slots = s.slots
          ∧ s.read.2.pending = s.pending.tail))
  ∧ (∀ (capacity : ℕ) (ds : List (List ℕ)), ds.length = capacity →
        (writeSeq (ShmRingBuffer.new capacity) ds).1 = true
      ∧ (∀ d, ((writeSeq (ShmRingBuffer.new capacity) ds).2.write d).1 = false)
      ∧ (1 ≤ capacity →
          ∀ d, (((writeSeq (ShmRingBuffer.new capacity) ds).2.read.2).write d).1 = true)) := by
  constructor
  · intro s hs
    obtain ⟨hrw, hcap⟩ := shm_invariant s hs
    refine ⟨⟨hrw, hcap⟩, fun data => ⟨fun hfl => ?_, fun hfull => ?_⟩,
      fun data hlt => ?_, ⟨fun hnr => ?_, fun hemp => ?_⟩, fun hlt => ?_⟩
    · by_contra hfull
      rw [shm_write_ok s data (by omega)] at hfl
      simp at hfl
    · rw [shm_write_full s data hfull]
      exact ⟨rfl, rfl⟩
    · rw [shm_write_ok s data hlt]
      refine ⟨rfl, rfl, rfl, ?_, fun i hi => ?_, ?_⟩
      · simp
      · simp only
        rw [if_neg hi]
      · rw [← shm_write_ok s data hlt]
        exact shm_pending_write s data hrw hlt
    · by_contra hne
      rw [shm_read_ok s (by omega)] at hnr
      simp at hnr
    · rw [shm_read_empty s hemp]
      exact ⟨rfl, rfl⟩
    · have hp := shm_pending_read s hlt
      rw [shm_read_ok s hlt] at hp ⊢
      exact ⟨rfl, hp.1, rfl, rfl, rfl, hp.2⟩
  · intro capacity ds hlen
    have hinit := writeSeq_ok ds (ShmRingBuffer.new capacity)
      (by simp [ShmRingBuffer.new]) (by simp [ShmRingBuffer.new, hlen])
    obtain ⟨h1, h2, h3, h4, _⟩ := hinit
    have hw : (writeSeq (ShmRingBuffer.new capacity) ds).2.write_cursor = ds.length := by
      rw [h2]
      simp [ShmRingBuffer.new]
    have hr : (writeSeq (ShmRingBuffer.new capacity) ds).2.read_cursor = 0 := h3.trans rfl
    have hc : (writeSeq (ShmRingBuffer.new capacity) ds).2.capacity = capacity := h4.trans rfl
    refine ⟨h1, fun d => ?_, fun hcap d => ?_⟩
    · rw [shm_write_full _ d (by rw [hw, hr, hc, hlen]; omega)]
    · have hread := shm_read_ok (writeSeq (ShmRingBuffer.new capacity) ds).2
        (by rw [hw, hr]; omega)
      rw [hread]
      rw [shm_write_ok _ d (by simp [hw, hr, hc, hlen]; omega)]

/-- C3 witness: from an empty buffer of capacity 1, one write succeeds. -/
theorem shmRingBuffer_spec_witness :
    (writeSeq (ShmRingBuffer.new 1) [[5]]).1 = true :=
  (shmRingBuffer_spec.2 1 [[5]] rfl).1
